import Mathlib

/-
  Verification of the user/kernel boundary-safety layer in sys/fs/syscalls.cpp:
  the scatter/gather transfer engine do_iov and the per-call syscall wrappers.

  Shallow embedding conventions:
  - user pointers are Nat, with 0 modelling the C null pointer;
  - the user-memory validator u_access_ok is an abstract parameter
    chk : Nat -> Nat -> Prot -> Bool (pointer, length, protection);
  - the interruptible address-space lock is modelled by its acquisition
    result lockRes : Int (negative = interrupted, lock not taken);
  - the injected transfer primitive (preadv/pwritev) is a parameter
    fn : Int -> List Iovec -> Int -> Int (fd, batch, offset -> bytes or error);
  - machine integers (int, ssize_t, off_t) are Int, size_t lengths are Nat;
  - observable actions (acquiring the lock, invoking the transfer primitive)
    are recorded in an event trace returned alongside the result;
  - assert() is a no-op, as in an NDEBUG build.
-/

namespace Apex

/-- errno value for EPERM. -/
def EPERM : Int := 1

/-- errno value for EFAULT. -/
def EFAULT : Int := 14

/-- errno value for EINVAL. -/
def EINVAL : Int := 22

/-- Platform bound on iovec entries per call (limits.h constant). -/
def IOV_MAX : Int := 1024

/-- Requested access permission, PROT_READ or PROT_WRITE. -/
inductive Prot
  | read
  | write
deriving DecidableEq

/-- One user-supplied iovec entry: iov_base (0 = nullptr) and iov_len. -/
structure Iovec where
  base : Nat
  len : Nat
deriving DecidableEq

/-- sizeof(struct iovec) on the 32-bit target: two 4-byte words. -/
def sizeofIovec : Nat := 8

/-- Observable actions of a syscall body. -/
inductive Event
  | lockAcquire
  | fnCall (fd : Int) (batch : List Iovec) (offset : Int)
deriving DecidableEq

/-- Validator shape of u_access_ok: pointer, byte length, permission. -/
abbrev Chk := Nat → Nat → Prot → Bool

/-- Shape of the injected transfer primitive: fd, batch, offset. -/
abbrev Fn := Int → List Iovec → Int → Int

/-- Sum of the lengths of the non-null entries of an iovec list. -/
def nnSum : List Iovec → Nat
  | [] => 0
  | e :: rest => (if e.base = 0 then 0 else e.len) + nnSum rest

/-- The inner for loop of do_iov over one batch: skip entries with a null
iov_base, validate every other entry with u_access_ok, and build the filtered
local batch together with its total requested length l.  Returns none when
some non-null entry fails validation (the DERR(-EFAULT) exit). -/
def scanBatch (chk : Chk) (prot : Prot) : List Iovec → Option (List Iovec × Nat)
  | [] => Option.some ([], 0)
  | e :: rest =>
    if e.base = 0 then scanBatch chk prot rest
    else if chk e.base e.len prot then
      match scanBatch chk prot rest with
      | Option.none => Option.none
      | Option.some (b, l) => Option.some (e :: b, e.len + l)
    else Option.none

/-- The while(1) loop of do_iov, fuelled.  State: remaining user iovec array
(uiov), remaining entry count, current offset, accumulated byte count ret.
Returns none only when fuel runs out; otherwise the result value together
with the trace of transfer-primitive invocations made from this state on. -/
def do_iovLoop (chk : Chk) (fn : Fn) (prot : Prot) (fd : Int) :
    Nat → List Iovec → Nat → Int → Int → Option (Int × List Event)
  | 0, _, _, _, _ => Option.none
  | fuel + 1, uiov, count, offset, ret =>
    match scanBatch chk prot (uiov.take (min count 16)) with
    | Option.none => Option.some (-EFAULT, [])
    | Option.some (batch, l) =>
      let r := fn fd batch offset
      if r = 0 then Option.some (ret, [Event.fnCall fd batch offset])
      else if r < 0 then
        if ret = 0 then Option.some (r, [Event.fnCall fd batch offset])
        else Option.some (ret, [Event.fnCall fd batch offset])
      else if r < (l : Int) then
        Option.some (ret + r, [Event.fnCall fd batch offset])
      else if count - min count 16 = 0 then
        Option.some (ret + r, [Event.fnCall fd batch offset])
      else
        match do_iovLoop chk fn prot fd fuel (uiov.drop (min count 16))
            (count - min count 16)
            (if 0 ≤ offset then offset + r else offset) (ret + r) with
        | Option.none => Option.none
        | Option.some (res, evs) =>
          Option.some (res, Event.fnCall fd batch offset :: evs)

/-- do_iov: range-check count, acquire the interruptible access lock,
validate the iovec array itself for read, then run the batched loop.
uiovBase is the user address of the array, uiov its contents. -/
def do_iov (chk : Chk) (lockRes : Int) (fn : Fn) (fd : Int) (uiovBase : Nat)
    (uiov : List Iovec) (count : Int) (offset : Int) (prot : Prot) :
    Option (Int × List Event) :=
  if count < 0 ∨ IOV_MAX < count then Option.some (-EINVAL, [])
  else if lockRes < 0 then Option.some (lockRes, [])
  else if ¬ chk uiovBase (sizeofIovec * count.toNat) Prot.read then
    Option.some (-EFAULT, [Event.lockAcquire])
  else
    match do_iovLoop chk fn prot fd (count.toNat + 1) uiov count.toNat offset 0 with
    | Option.none => Option.none
    | Option.some (res, evs) => Option.some (res, Event.lockAcquire :: evs)

/-- ioctl direction bits _IOC_DIR(request): the switch handles _IOC_READ and
_IOC_WRITE; every other direction takes the default path. -/
inductive IocDir
  | other
  | read
  | write
deriving DecidableEq

/-- sc_ioctl, with the count of u_access_begin pins still held at return as
second component.  For read/write requests the code calls u_access_begin and
u_access_ok; the u_access_end switch is placed after the return statement and
is therefore unreachable, so the pin is still held on both the EFAULT path
and the success path. -/
def sc_ioctl (dir : IocDir) (beginRes : Int) (argOk : Bool) (ioctlRes : Int) :
    Int × Nat :=
  match dir with
  | IocDir.other => (ioctlRes, 0)
  | _ =>
    if beginRes < 0 then (beginRes, 0)
    else if ¬ argOk then (-EFAULT, 1)
    else (ioctlRes, 1)

/-- sc_fcntl, with the count of u_access_begin pins still held at return as
second component.  For the lock commands (F_GETLK/F_SETLK/F_SETLKW) the code
pins the address space and validates arg; the EFAULT exit returns without
calling u_access_end, while the path through fcntl does unpin. -/
def sc_fcntl (lockCmd : Bool) (beginRes : Int) (argOk : Bool) (fcntlRes : Int) :
    Int × Nat :=
  if lockCmd then
    if beginRes < 0 then (beginRes, 0)
    else if ¬ argOk then (-EFAULT, 1)
    else (fcntlRes, 0)
  else (fcntlRes, 0)

/-- sc_chdir: lock, u_strcheck the path, then return chdir's result verbatim. -/
def sc_chdir (lockRes : Int) (pathOk : Bool) (chdirRes : Int) : Int :=
  if lockRes < 0 then lockRes
  else if ¬ pathOk then -EFAULT
  else chdirRes

/-- sc_llseek: lock, validate the result pointer for write, call lseek; a
negative lseek result is mapped to -1, otherwise 0 is returned and the offset
is stored through the result pointer (second component of the return). -/
def sc_llseek (lockRes : Int) (resultOk : Bool) (lseekRes : Int) :
    Int × Option Int :=
  if lockRes < 0 then (lockRes, Option.none)
  else if ¬ resultOk then (-EFAULT, Option.none)
  else if lseekRes < 0 then (-1, Option.none)
  else (0, Option.some lseekRes)

/-- sc_pread: reject a negative offset before the lock, then lock, validate
the buffer for write, and call pread.  The trace records lock acquisition. -/
def sc_pread (offset : Int) (lockRes : Int) (bufOk : Bool) (preadRes : Int) :
    Int × List Event :=
  if offset < 0 then (-EINVAL, [])
  else if lockRes < 0 then (lockRes, [])
  else if ¬ bufOk then (-EFAULT, [Event.lockAcquire])
  else (preadRes, [Event.lockAcquire])

/-- sc_pwrite: as sc_pread but validating the buffer for read. -/
def sc_pwrite (offset : Int) (lockRes : Int) (bufOk : Bool) (pwriteRes : Int) :
    Int × List Event :=
  if offset < 0 then (-EINVAL, [])
  else if lockRes < 0 then (lockRes, [])
  else if ¬ bufOk then (-EFAULT, [Event.lockAcquire])
  else (pwriteRes, [Event.lockAcquire])

/-- sc_preadv: reject a negative (reassembled) offset, then delegate to
do_iov with PROT_WRITE and preadv as the primitive. -/
def sc_preadv (chk : Chk) (lockRes : Int) (fn : Fn) (fd : Int) (uiovBase : Nat)
    (uiov : List Iovec) (count : Int) (offset : Int) :
    Option (Int × List Event) :=
  if offset < 0 then Option.some (-EINVAL, [])
  else do_iov chk lockRes fn fd uiovBase uiov count offset Prot.write

/-- sc_pwritev: reject a negative (reassembled) offset, then delegate to
do_iov with PROT_READ and pwritev as the primitive. -/
def sc_pwritev (chk : Chk) (lockRes : Int) (fn : Fn) (fd : Int) (uiovBase : Nat)
    (uiov : List Iovec) (count : Int) (offset : Int) :
    Option (Int × List Event) :=
  if offset < 0 then Option.some (-EINVAL, [])
  else do_iov chk lockRes fn fd uiovBase uiov count offset Prot.read

/-- sc_mount: capability check first, then lock, then u_strcheck on the
three path strings and u_address on a non-null data pointer, then mount. -/
def sc_mount (capAdmin : Bool) (lockRes : Int) (devOk dirOk fsOk : Bool)
    (dataNonNull : Bool) (dataOk : Bool) (mountRes : Int) : Int × List Event :=
  if ¬ capAdmin then (-EPERM, [])
  else if lockRes < 0 then (lockRes, [])
  else if ¬ devOk ∨ ¬ dirOk ∨ ¬ fsOk ∨ (dataNonNull ∧ ¬ dataOk) then
    (-EFAULT, [Event.lockAcquire])
  else (mountRes, [Event.lockAcquire])

/-- sc_umount2: capability check first, then lock, then u_strcheck on the
directory string, then umount2. -/
def sc_umount2 (capAdmin : Bool) (lockRes : Int) (dirOk : Bool)
    (umountRes : Int) : Int × List Event :=
  if ¬ capAdmin then (-EPERM, [])
  else if lockRes < 0 then (lockRes, [])
  else if ¬ dirOk then (-EFAULT, [Event.lockAcquire])
  else (umountRes, [Event.lockAcquire])

/-- Validator for a concrete scenario: user address 99 is unmapped, every
other region is accessible. -/
def cexChk : Chk := fun base _ _ => decide (base ≠ 99)

/-- Transfer primitive for a concrete scenario: fully transfers every batch
it is handed (returns the batch's total requested length). -/
def cexFn : Fn := fun _ batch _ => ((batch.map Iovec.len).sum : Int)

/-- 17 iovec entries: 16 valid one-byte entries followed by one entry at the
unmapped address 99. -/
def cexIov : List Iovec :=
  [⟨101, 1⟩, ⟨102, 1⟩, ⟨103, 1⟩, ⟨104, 1⟩, ⟨105, 1⟩, ⟨106, 1⟩, ⟨107, 1⟩,
   ⟨108, 1⟩, ⟨109, 1⟩, ⟨110, 1⟩, ⟨111, 1⟩, ⟨112, 1⟩, ⟨113, 1⟩, ⟨114, 1⟩,
   ⟨115, 1⟩, ⟨116, 1⟩, ⟨99, 1⟩]

/-- C1 counterexample: 17 entries, the first batch of 16 transfers fully
(16 bytes, witnessed by cexFn's value on that batch), the 17th entry fails
region validation in the second batch, and the call returns -EFAULT instead
of the accumulated 16 bytes: the claimed partial-transfer-is-success
semantics does not hold in the code. -/
theorem later_batch_fault_cex :
    do_iov cexChk 0 cexFn 3 50 cexIov 17 (-1) Prot.read =
      Option.some (-EFAULT, [Event.lockAcquire,
        Event.fnCall 3 (cexIov.take 16) (-1)]) ∧
    cexFn 3 (cexIov.take 16) (-1) = 16 ∧ (-EFAULT : Int) ≠ 16 := by
  refine ⟨by decide, by decide, by decide⟩

/-- C1 (amended): a region-validation failure on an entry of the current
batch makes the do_iov loop return -EFAULT unconditionally, discarding any
byte count ret > 0 accumulated by earlier batches. -/
theorem later_batch_fault (chk : Chk) (fn : Fn) (prot : Prot) (fd : Int)
    (fuel : Nat) (uiov : List Iovec) (count : Nat) (offset ret : Int)
    (hscan : scanBatch chk prot (uiov.take (min count 16)) = Option.none) :
    do_iovLoop chk fn prot fd (fuel + 1) uiov count offset ret =
      Option.some (-EFAULT, []) := by
  unfold do_iovLoop
  rw [hscan]

/-- Witness for later_batch_fault: one invalid entry, 16 bytes already
accumulated, the loop still returns -EFAULT. -/
theorem later_batch_fault_witness :
    scanBatch (fun b _ _ => decide (b ≠ 7)) Prot.read
        (([⟨7, 1⟩] : List Iovec).take (min 1 16)) = Option.none ∧
    do_iovLoop (fun b _ _ => decide (b ≠ 7)) (fun _ _ _ => 0) Prot.read 3 1
        [⟨7, 1⟩] 1 (-1) 16 = Option.some (-EFAULT, []) :=
  ⟨by decide, later_batch_fault _ _ _ _ 0 _ _ _ _ (by decide)⟩

/-- C2: the claim that sc_ioctl and sc_fcntl release the u_access_begin pin
on every return path fails on the code: sc_ioctl's u_access_end switch sits
after its return statement and is unreachable, so a successful read-direction
ioctl returns with the pin still held, and sc_fcntl's EFAULT exit on a lock
command also returns with the pin held. -/
theorem access_pin_leak :
    (sc_ioctl IocDir.read 0 true 0).2 = 1 ∧
    (sc_fcntl true 0 false 0).2 = 1 := by
  refine ⟨by decide, by decide⟩

/-- C4 counterexample: with a single null-pointer entry of length 10 the
call succeeds with 0 bytes, but the transfer primitive IS invoked, once,
with an empty batch - refuting the claim that it is never called. -/
theorem null_entry_cex :
    do_iov (fun _ _ _ => true) 0 (fun _ _ _ => 0) 3 50 [⟨0, 10⟩] 1 (-1)
        Prot.write =
      Option.some (0, [Event.lockAcquire, Event.fnCall 3 [] (-1)]) ∧
    Event.fnCall 3 [] (-1) ∈
      [Event.lockAcquire, Event.fnCall 3 [] (-1)] := by
  refine ⟨by decide, by decide⟩

/-- C4 (amended): for a single null entry of length 10 (array validation
succeeding), do_iov invokes the primitive once with an empty batch; when the
primitive returns 0 for that empty batch, the call returns success with zero
bytes transferred. -/
theorem null_entry_zero (chk : Chk) (fn : Fn) (fd : Int) (uiovBase : Nat)
    (offset : Int) (prot : Prot)
    (harr : chk uiovBase sizeofIovec Prot.read = true)
    (hfn : fn fd [] offset = 0) :
    do_iov chk 0 fn fd uiovBase [⟨0, 10⟩] 1 offset prot =
      Option.some (0, [Event.lockAcquire, Event.fnCall fd [] offset]) := by
  have h1 : (1 : Int).toNat = 1 := rfl
  simp [do_iov, do_iovLoop, scanBatch, IOV_MAX, h1, harr, hfn]

/-- Witness for null_entry_zero with a trivial validator and primitive. -/
theorem null_entry_zero_witness :
    ((fun _ _ _ => true : Chk) 50 sizeofIovec Prot.read = true) ∧
    ((fun _ _ _ => (0 : Int) : Fn) 3 [] (-1) = 0) ∧
    do_iov (fun _ _ _ => true) 0 (fun _ _ _ => 0) 3 50 [⟨0, 10⟩] 1 (-1)
        Prot.read =
      Option.some (0, [Event.lockAcquire, Event.fnCall 3 [] (-1)]) :=
  ⟨rfl, rfl, null_entry_zero _ _ _ _ _ _ rfl rfl⟩

/-- C5: a positive primitive result strictly below the batch's requested
length is added to the accumulated total and the loop stops at once: exactly
one primitive call is made from this state and no later batch is attempted. -/
theorem short_transfer_stops (chk : Chk) (fn : Fn) (prot : Prot) (fd : Int)
    (fuel : Nat) (uiov : List Iovec) (count : Nat) (offset ret : Int)
    (batch : List Iovec) (l : Nat)
    (hscan : scanBatch chk prot (uiov.take (min count 16)) =
      Option.some (batch, l))
    (hpos : 0 < fn fd batch offset)
    (hshort : fn fd batch offset < (l : Int)) :
    do_iovLoop chk fn prot fd (fuel + 1) uiov count offset ret =
      Option.some (ret + fn fd batch offset,
        [Event.fnCall fd batch offset]) := by
  have hr0 : ¬ fn fd batch offset = 0 := by omega
  have hrneg : ¬ fn fd batch offset < 0 := by omega
  unfold do_iovLoop
  rw [hscan]
  simp [hr0, hrneg, hshort]

/-- Witness for short_transfer_stops: one entry of length 10, primitive
returns 4, loop returns 4 after a single call. -/
theorem short_transfer_stops_witness :
    scanBatch (fun _ _ _ => true) Prot.read
        (([⟨5, 10⟩] : List Iovec).take (min 1 16)) =
      Option.some ([⟨5, 10⟩], 10) ∧
    (0 : Int) < 4 ∧ (4 : Int) < ((10 : Nat) : Int) ∧
    do_iovLoop (fun _ _ _ => true) (fun _ _ _ => 4) Prot.read 3 1 [⟨5, 10⟩] 1
        (-1) 0 = Option.some (0 + 4, [Event.fnCall 3 [⟨5, 10⟩] (-1)]) :=
  ⟨by decide, by decide, by decide,
   short_transfer_stops (fun _ _ _ => true) (fun _ _ _ => 4) Prot.read 3 0
     [⟨5, 10⟩] 1 (-1) 0 [⟨5, 10⟩] 10 (by decide) (by decide) (by decide)⟩

/-- C6: a descriptor count outside [0, IOV_MAX] makes do_iov return -EINVAL
with an empty event trace: zero bytes transferred, the address-space guard
never acquired and the transfer primitive never invoked. -/
theorem count_range_einval (chk : Chk) (lockRes : Int) (fn : Fn) (fd : Int)
    (uiovBase : Nat) (uiov : List Iovec) (count : Int) (offset : Int)
    (prot : Prot) (h : count < 0 ∨ IOV_MAX < count) :
    do_iov chk lockRes fn fd uiovBase uiov count offset prot =
      Option.some (-EINVAL, []) := by
  unfold do_iov
  rw [if_pos h]

/-- Witness for count_range_einval at count = -1. -/
theorem count_range_einval_witness :
    ((-1 : Int) < 0 ∨ IOV_MAX < -1) ∧
    do_iov (fun _ _ _ => true) 0 (fun _ _ _ => 0) 3 0 [] (-1) 0 Prot.read =
      Option.some (-EINVAL, []) :=
  ⟨Or.inl (by decide),
   count_range_einval _ _ _ _ _ _ _ _ _ (Or.inl (by decide))⟩

/-- C7 counterexample: when the underlying lseek returns the error code -9,
sc_llseek returns -1, not -9: the underlying error code is not passed
through unchanged. -/
theorem llseek_error_cex :
    sc_llseek 0 true (-9) = (-1, Option.none) ∧ (-1 : Int) ≠ -9 := by
  refine ⟨by decide, by decide⟩

/-- C7 (amended): once validation succeeds, sc_chdir returns the underlying
result verbatim, but sc_llseek is an exception: it maps every negative lseek
result to -1, and a non-negative result to 0 with the offset stored through
the result pointer. -/
theorem underlying_result_passthrough (lockRes : Int) (r : Int)
    (hl : 0 ≤ lockRes) :
    sc_chdir lockRes true r = r ∧
    (r < 0 → sc_llseek lockRes true r = (-1, Option.none)) ∧
    (0 ≤ r → sc_llseek lockRes true r = (0, Option.some r)) := by
  have hnl : ¬ lockRes < 0 := not_lt.mpr hl
  refine ⟨?_, fun hr => ?_, fun hr => ?_⟩
  · simp [sc_chdir, hnl]
  · simp [sc_llseek, hnl, hr]
  · simp [sc_llseek, hnl, not_lt.mpr hr]

/-- Witness for underlying_result_passthrough at lockRes = 0, r = -9. -/
theorem underlying_result_passthrough_witness :
    (0 : Int) ≤ 0 ∧ sc_chdir 0 true (-9) = -9 :=
  ⟨le_refl 0, (underlying_result_passthrough 0 (-9) (le_refl 0)).1⟩

/-- C8: every positioned-I/O wrapper called with a negative offset returns
-EINVAL with an empty event trace (guard never acquired), for every
validator outcome, every primitive and every underlying result: no buffer
is validated or touched and the underlying operation is never invoked. -/
theorem negative_offset_einval (offset : Int) (h : offset < 0) :
    (∀ lockRes bufOk r, sc_pread offset lockRes bufOk r = (-EINVAL, [])) ∧
    (∀ lockRes bufOk r, sc_pwrite offset lockRes bufOk r = (-EINVAL, [])) ∧
    (∀ chk lockRes fn fd uiovBase uiov count,
      sc_preadv chk lockRes fn fd uiovBase uiov count offset =
        Option.some (-EINVAL, [])) ∧
    (∀ chk lockRes fn fd uiovBase uiov count,
      sc_pwritev chk lockRes fn fd uiovBase uiov count offset =
        Option.some (-EINVAL, [])) := by
  refine ⟨fun _ _ _ => ?_, fun _ _ _ => ?_,
    fun _ _ _ _ _ _ _ => ?_, fun _ _ _ _ _ _ _ => ?_⟩ <;>
    simp [sc_pread, sc_pwrite, sc_preadv, sc_pwritev, h]

/-- Witness for negative_offset_einval at offset = -5. -/
theorem negative_offset_einval_witness :
    (-5 : Int) < 0 ∧ sc_pread (-5) 0 true 7 = (-EINVAL, []) :=
  ⟨by decide, (negative_offset_einval (-5) (by decide)).1 0 true 7⟩

/-- C9: a caller without CAP_ADMIN gets -EPERM from sc_mount and sc_umount2
with an empty event trace, for every lock outcome, every string/pointer
validation outcome and every underlying result: the guard is never acquired,
no argument is validated and mount/umount2 is never invoked. -/
theorem mount_requires_cap (capAdmin : Bool) (h : capAdmin = false) :
    (∀ lockRes devOk dirOk fsOk dataNonNull dataOk mountRes,
      sc_mount capAdmin lockRes devOk dirOk fsOk dataNonNull dataOk mountRes =
        (-EPERM, [])) ∧
    (∀ lockRes dirOk umountRes,
      sc_umount2 capAdmin lockRes dirOk umountRes = (-EPERM, [])) := by
  subst h
  refine ⟨fun _ _ _ _ _ _ _ => ?_, fun _ _ _ => ?_⟩ <;>
    simp [sc_mount, sc_umount2]

/-- Witness for mount_requires_cap with capAdmin = false. -/
theorem mount_requires_cap_witness :
    (false = false) ∧ sc_mount false 0 true true true false true 0 =
      (-EPERM, []) :=
  ⟨rfl, (mount_requires_cap false rfl).1 0 true true true false true 0⟩

theorem nnSum_append (xs ys : List Iovec) :
    nnSum (xs ++ ys) = nnSum xs + nnSum ys := by
  induction xs with
  | nil => simp [nnSum]
  | cons e rest ih => simp [nnSum, ih, Nat.add_assoc]

theorem nnSum_take_le (xs : List Iovec) (m : Nat) :
    nnSum (xs.take m) ≤ nnSum xs := by
  conv_rhs => rw [← List.take_append_drop m xs]
  rw [nnSum_append]
  omega

theorem nnSum_take_mono (xs : List Iovec) (m n : Nat) (h : m ≤ n) :
    nnSum (xs.take m) ≤ nnSum (xs.take n) := by
  have heq : xs.take m = (xs.take n).take m := by
    rw [List.take_take, Nat.min_eq_left h]
  rw [heq]
  exact nnSum_take_le _ _

/-- When the batch scan succeeds, the requested length l is the length sum of
the filtered batch, equals the non-null length sum of the scanned entries,
and the batch contains no null pointer. -/
theorem scanBatch_some (chk : Chk) (prot : Prot) :
    ∀ xs b l, scanBatch chk prot xs = Option.some (b, l) →
      l = (b.map Iovec.len).sum ∧ l = nnSum xs ∧ ∀ e ∈ b, e.base ≠ 0 := by
  intro xs
  induction xs with
  | nil =>
    intro b l h
    simp only [scanBatch, Option.some.injEq, Prod.mk.injEq] at h
    obtain ⟨hb, hl⟩ := h
    subst hb
    subst hl
    simp [nnSum]
  | cons e rest ih =>
    intro b l h
    by_cases h0 : e.base = 0
    · rw [scanBatch, if_pos h0] at h
      obtain ⟨h1, h2, h3⟩ := ih b l h
      exact ⟨h1, by simp [nnSum, h0, h2], h3⟩
    · rw [scanBatch, if_neg h0] at h
      by_cases hc : chk e.base e.len prot = true
      · rw [if_pos hc] at h
        cases hrest : scanBatch chk prot rest with
        | none => rw [hrest] at h; exact absurd h (by simp)
        | some pair =>
          obtain ⟨b', l'⟩ := pair
          rw [hrest] at h
          simp only [Option.some.injEq, Prod.mk.injEq] at h
          obtain ⟨hb, hl⟩ := h
          obtain ⟨h1, h2, h3⟩ := ih b' l' hrest
          subst hb
          subst hl
          refine ⟨by simp [h1], by simp [nnSum, h0, h2], ?_⟩
          intro x hx
          rcases List.mem_cons.mp hx with hx | hx
          · subst hx; exact h0
          · exact h3 x hx
      · rw [if_neg hc] at h
        exact absurd h (by simp)

/-- Loop invariant of do_iov: when the primitive's result on every batch is
bounded by that batch's length sum, the loop result is either bounded by the
accumulated count plus the non-null length sum of the remaining entries, or
negative; and every primitive invocation recorded in the trace carries a
batch free of null pointers. -/
theorem do_iovLoop_sound (chk : Chk) (fn : Fn) (prot : Prot) (fd : Int)
    (hfn : ∀ b o, fn fd b o ≤ ((b.map Iovec.len).sum : Int)) :
    ∀ fuel uiov count offset ret res evs,
      do_iovLoop chk fn prot fd fuel uiov count offset ret =
        Option.some (res, evs) →
      (res ≤ ret + (nnSum (uiov.take count) : Int) ∨ res < 0) ∧
      (∀ g b o, Event.fnCall g b o ∈ evs → ∀ e ∈ b, e.base ≠ 0) := by
  intro fuel
  induction fuel with
  | zero =>
    intro uiov count offset ret res evs h
    simp [do_iovLoop] at h
  | succ fuel ih =>
    intro uiov count offset ret res evs h
    simp only [do_iovLoop] at h
    split at h
    · -- validation failure on this batch: -EFAULT, empty trace
      simp only [Option.some.injEq, Prod.mk.injEq] at h
      obtain ⟨hres, hevs⟩ := h
      subst hres
      subst hevs
      refine ⟨Or.inr (by decide), by simp⟩
    · rename_i pair batch l hscan
      obtain ⟨hl1, hl2, hnn⟩ := scanBatch_some chk prot _ _ _ hscan
      have hrle : fn fd batch offset ≤ (l : Int) := by
        rw [hl1]; exact_mod_cast hfn batch offset
      have hmono : (l : Int) ≤ (nnSum (uiov.take count) : Int) := by
        have := nnSum_take_mono uiov (min count 16) count (Nat.min_le_left _ _)
        rw [hl2]
        exact_mod_cast this
      split at h
      · -- r = 0: end of data, return accumulated count
        rename_i hr0
        simp only [Option.some.injEq, Prod.mk.injEq] at h
        obtain ⟨hres, hevs⟩ := h
        subst hres
        subst hevs
        refine ⟨Or.inl (by omega), ?_⟩
        intro g b o hmem
        simp only [List.mem_singleton, Event.fnCall.injEq] at hmem
        obtain ⟨_, hb, _⟩ := hmem
        subst hb
        exact hnn
      · split at h
        · -- r < 0: error from the primitive
          rename_i hrneg
          split at h
          · -- nothing transferred yet: propagate the error
            simp only [Option.some.injEq, Prod.mk.injEq] at h
            obtain ⟨hres, hevs⟩ := h
            subst hres
            subst hevs
            refine ⟨Or.inr hrneg, ?_⟩
            intro g b o hmem
            simp only [List.mem_singleton, Event.fnCall.injEq] at hmem
            obtain ⟨_, hb, _⟩ := hmem
            subst hb
            exact hnn
          · -- short transfer already accumulated: return it
            simp only [Option.some.injEq, Prod.mk.injEq] at h
            obtain ⟨hres, hevs⟩ := h
            subst hres
            subst hevs
            refine ⟨Or.inl (by omega), ?_⟩
            intro g b o hmem
            simp only [List.mem_singleton, Event.fnCall.injEq] at hmem
            obtain ⟨_, hb, _⟩ := hmem
            subst hb
            exact hnn
        · split at h
          · -- 0 < r < l: short transfer, stop with ret + r
            rename_i hshort
            simp only [Option.some.injEq, Prod.mk.injEq] at h
            obtain ⟨hres, hevs⟩ := h
            subst hres
            subst hevs
            refine ⟨Or.inl (by omega), ?_⟩
            intro g b o hmem
            simp only [List.mem_singleton, Event.fnCall.injEq] at hmem
            obtain ⟨_, hb, _⟩ := hmem
            subst hb
            exact hnn
          · split at h
            · -- full batch and count exhausted: stop with ret + r
              simp only [Option.some.injEq, Prod.mk.injEq] at h
              obtain ⟨hres, hevs⟩ := h
              subst hres
              subst hevs
              refine ⟨Or.inl (by omega), ?_⟩
              intro g b o hmem
              simp only [List.mem_singleton, Event.fnCall.injEq] at hmem
              obtain ⟨_, hb, _⟩ := hmem
              subst hb
              exact hnn
            · -- full batch, entries remain: recurse on the tail
              rename_i hcne
              split at h
              · exact absurd h (by simp)
              · rename_i pair' res' evs' hrec
                simp only [Option.some.injEq, Prod.mk.injEq] at h
                obtain ⟨hres, hevs⟩ := h
                subst hres
                subst hevs
                obtain ⟨ihb, ihm⟩ := ih _ _ _ _ _ _ hrec
                have hsplit : nnSum (uiov.take count) =
                    nnSum (uiov.take (min count 16)) +
                    nnSum ((uiov.drop (min count 16)).take
                      (count - min count 16)) := by
                  conv_lhs =>
                    rw [show count = min count 16 + (count - min count 16) by
                      omega]
                  rw [List.take_add, nnSum_append]
                constructor
                · rcases ihb with ihb | ihb
                  · left
                    have h1 : ((nnSum ((uiov.drop (min count 16)).take
                        (count - min count 16))) : Int) ≤
                        (nnSum (uiov.take count) : Int) -
                        (nnSum (uiov.take (min count 16)) : Int) := by
                      rw [hsplit]; push_cast; omega
                    have h2 : (l : Int) =
                        (nnSum (uiov.take (min count 16)) : Int) := by
                      exact_mod_cast congrArg Nat.cast hl2
                    omega
                  · exact Or.inr ihb
                · intro g b o hmem
                  rcases List.mem_cons.mp hmem with hmem | hmem
                  · injection hmem with hg hb ho
                    subst hb
                    exact hnn
                  · exact ihm g b o hmem

/-- C3: whenever the transfer primitive's result on each batch is bounded by
that batch's requested length, a non-negative result of do_iov never exceeds
the sum of the lengths of the non-null iovec entries supplied, and every
primitive invocation in the trace carries a batch without null pointers. -/
theorem do_iov_bounded (chk : Chk) (lockRes : Int) (fn : Fn) (fd : Int)
    (uiovBase : Nat) (uiov : List Iovec) (count : Int) (offset : Int)
    (prot : Prot)
    (hfn : ∀ b o, fn fd b o ≤ ((b.map Iovec.len).sum : Int))
    (res : Int) (evs : List Event)
    (h : do_iov chk lockRes fn fd uiovBase uiov count offset prot =
      Option.some (res, evs)) :
    (0 ≤ res → res ≤ (nnSum (uiov.take count.toNat) : Int)) ∧
    (∀ g b o, Event.fnCall g b o ∈ evs → ∀ e ∈ b, e.base ≠ 0) := by
  unfold do_iov at h
  split at h
  · simp only [Option.some.injEq, Prod.mk.injEq] at h
    obtain ⟨hres, hevs⟩ := h
    subst hres
    subst hevs
    exact ⟨fun hge => absurd hge (by decide), by simp⟩
  · split at h
    · rename_i hlock
      simp only [Option.some.injEq, Prod.mk.injEq] at h
      obtain ⟨hres, hevs⟩ := h
      subst hres
      subst hevs
      exact ⟨fun hge => absurd hge (by omega), by simp⟩
    · split at h
      · simp only [Option.some.injEq, Prod.mk.injEq] at h
        obtain ⟨hres, hevs⟩ := h
        subst hres
        subst hevs
        refine ⟨fun hge => absurd hge (by decide), ?_⟩
        intro g b o hmem
        simp at hmem
      · split at h
        · exact absurd h (by simp)
        · rename_i pair res' evs' hloop
          simp only [Option.some.injEq, Prod.mk.injEq] at h
          obtain ⟨hres, hevs⟩ := h
          subst hres
          subst hevs
          obtain ⟨hb, hm⟩ := do_iovLoop_sound chk fn prot fd hfn _ _ _ _ _
            _ _ hloop
          constructor
          · intro hge
            rcases hb with hb | hb
            · omega
            · omega
          · intro g b o hmem
            rcases List.mem_cons.mp hmem with hmem | hmem
            · exact absurd hmem (by simp)
            · exact hm g b o hmem

/-- Witness for do_iov_bounded: trivial validator, primitive returning 0,
one entry of length 3. -/
theorem do_iov_bounded_witness :
    (∀ b o, (fun _ _ _ => (0 : Int) : Fn) 3 b o ≤
      ((b.map Iovec.len).sum : Int)) ∧
    (do_iov (fun _ _ _ => true) 0 (fun _ _ _ => 0) 3 50 [⟨5, 3⟩] 1 (-1)
        Prot.read =
      Option.some (0, [Event.lockAcquire, Event.fnCall 3 [⟨5, 3⟩] (-1)])) ∧
    (((0 : Int) ≤ 0 →
      (0 : Int) ≤ (nnSum (([⟨5, 3⟩] : List Iovec).take (1 : Int).toNat) :
        Int)) ∧
    (∀ g b o, Event.fnCall g b o ∈
        [Event.lockAcquire, Event.fnCall 3 [⟨5, 3⟩] (-1)] →
      ∀ e ∈ b, e.base ≠ 0)) :=
  ⟨fun b o => Int.natCast_nonneg _, by decide,
   do_iov_bounded (fun _ _ _ => true) 0 (fun _ _ _ => 0) 3 50 [⟨5, 3⟩] 1
     (-1) Prot.read (fun b o => Int.natCast_nonneg _) 0
     [Event.lockAcquire, Event.fnCall 3 [⟨5, 3⟩] (-1)] (by decide)⟩

/-- Fuel adequacy for the do_iov loop: with more fuel than remaining entry
count the loop always yields a result, because an iteration either returns
or strictly shrinks the remaining count by the batch size. -/
theorem do_iovLoop_total (chk : Chk) (fn : Fn) (prot : Prot) (fd : Int) :
    ∀ fuel count, count < fuel → ∀ uiov offset ret,
      (do_iovLoop chk fn prot fd fuel uiov count offset ret).isSome =
        true := by
  intro fuel
  induction fuel with
  | zero => intro count h; omega
  | succ fuel ih =>
    intro count hcount uiov offset ret
    rw [do_iovLoop]
    cases hscan : scanBatch chk prot (uiov.take (min count 16)) with
    | none => simp [hscan]
    | some pair =>
      obtain ⟨batch, l⟩ := pair
      by_cases h0 : fn fd batch offset = 0
      · simp [hscan, h0]
      · by_cases hneg : fn fd batch offset < 0
        · by_cases hret : ret = 0 <;> simp [hscan, h0, hneg, hret]
        · by_cases hs : fn fd batch offset < (l : Int)
          · simp [hscan, h0, hneg, hs]
          · by_cases hc : count - min count 16 = 0
            · simp [hscan, h0, hneg, hs, hc]
            · have hlt : count - min count 16 < fuel := by omega
              have hrec := ih (count - min count 16) hlt
                (uiov.drop (min count 16))
                (if 0 ≤ offset then offset + fn fd batch offset else offset)
                (ret + fn fd batch offset)
              rw [Option.isSome_iff_exists] at hrec
              obtain ⟨pr, hpr⟩ := hrec
              obtain ⟨res, evs⟩ := pr
              simp [hscan, h0, hneg, hs, hc, hpr]

/-- C10: for every in-range count and every primitive bounded by the batch
length, do_iov yields a result: the fuelled loop never exhausts its fuel of
count + 1, since every iteration either returns or strictly decreases the
remaining entry count, and zero remaining entries always returns. -/
theorem do_iov_terminates (chk : Chk) (lockRes : Int) (fn : Fn) (fd : Int)
    (uiovBase : Nat) (uiov : List Iovec) (count : Int) (offset : Int)
    (prot : Prot) (hcount : 0 ≤ count ∧ count ≤ IOV_MAX)
    (hfn : ∀ b o, fn fd b o ≤ ((b.map Iovec.len).sum : Int)) :
    (do_iov chk lockRes fn fd uiovBase uiov count offset prot).isSome =
      true := by
  unfold do_iov
  split
  · simp
  · split
    · simp
    · split
      · simp
      · have h := do_iovLoop_total chk fn prot fd (count.toNat + 1)
          count.toNat (by omega) uiov offset 0
        split
        · rename_i hx
          rw [hx] at h
          simp at h
        · simp

/-- Witness for do_iov_terminates at count = 1 with a zero primitive. -/
theorem do_iov_terminates_witness :
    ((0 : Int) ≤ 1 ∧ (1 : Int) ≤ IOV_MAX) ∧
    (∀ b o, (fun _ _ _ => (0 : Int) : Fn) 3 b o ≤
      ((b.map Iovec.len).sum : Int)) ∧
    (do_iov (fun _ _ _ => true) 0 (fun _ _ _ => 0) 3 50 [⟨5, 3⟩] 1 (-1)
        Prot.write).isSome = true :=
  ⟨⟨by decide, by decide⟩, fun b o => Int.natCast_nonneg _,
   do_iov_terminates (fun _ _ _ => true) 0 (fun _ _ _ => 0) 3 50 [⟨5, 3⟩] 1
     (-1) Prot.write ⟨by decide, by decide⟩ (fun b o => Int.natCast_nonneg _)⟩

end Apex
